import Mathlib

/-!
Most significant bit of a 64-bit unsigned integer.

A shallow embedding of `src/bit_manipulation/most_significant_bit.cpp`.

A `uint64_t` value is a natural number below `2 ^ 64`.  A right shift and a
bitwise or of such values never leave that range, so they are the operations of
`Nat`; the increment `x++` is the only step that can wrap, and it is taken
modulo `2 ^ 64`.  The counter `ret` of the counting loop is an `int` that
starts at `0` and is increased by one per iteration; it stays far below
`2 ^ 31` (see `countLoop_le`), so it is a natural number as well and
its conversion to the `uint64_t` return type changes nothing.
-/

namespace bit_manipulation

/-- Number of values of a `uint64_t`: arithmetic on it is modulo this number. -/
def UINT64_SIZE : Nat := 2 ^ 64

/-- The six shift-or statements `x |= (x >> 1); ... ; x |= (x >> 32);` that open
both functions of the source (lines 44-49 and lines 61-66). -/
def smear (x : Nat) : Nat :=
  let x := x ||| (x >>> 1)
  let x := x ||| (x >>> 2)
  let x := x ||| (x >>> 4)
  let x := x ||| (x >>> 8)
  let x := x ||| (x >>> 16)
  let x := x ||| (x >>> 32)
  x

/-- The function `most_significant_bit` of the source (lines 43-53). -/
def most_significant_bit (x : Nat) : Nat :=
  let x := x ||| (x >>> 1)
  let x := x ||| (x >>> 2)
  let x := x ||| (x >>> 4)
  let x := x ||| (x >>> 8)
  let x := x ||| (x >>> 16)
  let x := x ||| (x >>> 32)
  let x := (x + 1) % UINT64_SIZE
  let x := x >>> 1
  x

/-- The loop `while (x > 1) { ret++; x >>= 1; }` of the source (lines 76-79),
started in the state `(x, ret)`; its value is the final `ret`.  Every
iteration halves `x`, so the loop ends. -/
def countLoop (x ret : Nat) : Nat :=
  if x > 1 then countLoop (x >>> 1) (ret + 1) else ret
termination_by x
decreasing_by
  simp only [Nat.shiftRight_eq_div_pow]
  omega

/-- The same loop with a budget of iterations: `fuel` is the number of times the
body may still run, and `none` says that the budget did not suffice. -/
def countLoopFuel : Nat → Nat → Nat → Option Nat
  | fuel, x, ret =>
    if x > 1 then
      match fuel with
      | 0 => none
      | fuel + 1 => countLoopFuel fuel (x >>> 1) (ret + 1)
    else some ret

/-- The function `position_of_the_most_significant_bit` of the source
(lines 60-81), which repeats the body of `most_significant_bit` inline and
then runs the counting loop from `ret = 0`. -/
def position_of_the_most_significant_bit (x : Nat) : Nat :=
  let x := x ||| (x >>> 1)
  let x := x ||| (x >>> 2)
  let x := x ||| (x >>> 4)
  let x := x ||| (x >>> 8)
  let x := x ||| (x >>> 16)
  let x := x ||| (x >>> 32)
  let x := (x + 1) % UINT64_SIZE
  let x := x >>> 1
  countLoop x 0

/-- The function `position_of_the_most_significant_bit` of the source
(lines 60-81) with its loop run on a budget of `fuel` iterations. -/
def position_fuel (fuel x : Nat) : Option Nat :=
  let x := x ||| (x >>> 1)
  let x := x ||| (x >>> 2)
  let x := x ||| (x >>> 4)
  let x := x ||| (x >>> 8)
  let x := x ||| (x >>> 16)
  let x := x ||| (x >>> 32)
  let x := (x + 1) % UINT64_SIZE
  let x := x >>> 1
  countLoopFuel fuel x 0

/-- The position function as the specification allows it to be written: the
isolate operation is called instead of being repeated inline, and the counting
loop of the source runs on its result. -/
def position_via_isolate (x : Nat) : Nat :=
  countLoop (most_significant_bit x) 0

/-- The counting step as the specification words it: shift the value right by 1
and increment the counter, until the value is at most 1; the value of the
function is the final counter. -/
def shiftUntilLeOne (value counter : Nat) : Nat :=
  if value ≤ 1 then counter else shiftUntilLeOne (value >>> 1) (counter + 1)
termination_by value
decreasing_by
  simp only [Nat.shiftRight_eq_div_pow]
  omega

/-- The position algorithm as the specification words it: the counting step
runs on the smeared value itself, the value after the six shift-or steps and
before any increment. -/
def position_spec (x : Nat) : Nat :=
  shiftUntilLeOne (smear x) 0

/-! The two functions behind their shared prefix -/

theorem most_significant_bit_eq (x : Nat) :
    most_significant_bit x = ((smear x + 1) % UINT64_SIZE) >>> 1 := rfl

theorem position_eq_countLoop (x : Nat) :
    position_of_the_most_significant_bit x = countLoop (most_significant_bit x) 0 := rfl

theorem position_fuel_eq (fuel x : Nat) :
    position_fuel fuel x = countLoopFuel fuel (most_significant_bit x) 0 := rfl

theorem position_eq (x : Nat) :
    position_of_the_most_significant_bit x
      = countLoop (((smear x + 1) % UINT64_SIZE) >>> 1) 0 := rfl

/-! Bits of the smeared value -/

/-- One shift-or step doubles the width of the window of bits of `x` that a bit
of the running value collects. -/
theorem testBit_fill_step (x y m : Nat)
    (h : ∀ i, y.testBit i = true ↔ ∃ j, j < m ∧ x.testBit (i + j) = true) (i : Nat) :
    (y ||| (y >>> m)).testBit i = true ↔ ∃ j, j < m + m ∧ x.testBit (i + j) = true := by
  rw [Nat.testBit_lor, Nat.testBit_shiftRight, Bool.or_eq_true, h, h]
  constructor
  · rintro (⟨j, hj, hb⟩ | ⟨j, hj, hb⟩)
    · exact ⟨j, by omega, hb⟩
    · refine ⟨m + j, by omega, ?_⟩
      have e : i + (m + j) = m + i + j := by omega
      rw [e]; exact hb
  · rintro ⟨j, hj, hb⟩
    by_cases hjm : j < m
    · exact Or.inl ⟨j, hjm, hb⟩
    · refine Or.inr ⟨j - m, by omega, ?_⟩
      have e : m + i + (j - m) = i + j := by omega
      rw [e]; exact hb

/-- Bit `i` of the smeared value is set exactly when one of the bits
`i, i + 1, ..., i + 63` of `x` is set. -/
theorem testBit_smear (x i : Nat) :
    (smear x).testBit i = true ↔ ∃ j, j < 64 ∧ x.testBit (i + j) = true := by
  have h0 : ∀ i, x.testBit i = true ↔ ∃ j, j < 1 ∧ x.testBit (i + j) = true := by
    intro i
    constructor
    · intro hb; exact ⟨0, by omega, hb⟩
    · rintro ⟨j, hj, hb⟩
      have e : j = 0 := by omega
      subst e; exact hb
  have h1 := testBit_fill_step x _ 1 h0
  have h2 := testBit_fill_step x _ 2 h1
  have h3 := testBit_fill_step x _ 4 h2
  have h4 := testBit_fill_step x _ 8 h3
  have h5 := testBit_fill_step x _ 16 h4
  have h6 := testBit_fill_step x _ 32 h5
  exact h6 i

/-- The floor of the binary logarithm of a 64-bit value is at most 63. -/
theorem log_lt_64 (x : Nat) (hx : x < 2 ^ 64) : Nat.log 2 x < 64 := by
  rcases Nat.eq_zero_or_pos x with h | h
  · subst h; simp
  · exact Nat.log_lt_of_lt_pow (by omega) hx

/-- The bit at the position of the binary logarithm is set. -/
theorem testBit_log (x : Nat) (hx : 0 < x) : x.testBit (Nat.log 2 x) = true := by
  have h1 : 2 ^ Nat.log 2 x ≤ x := Nat.pow_log_le_self 2 (by omega)
  have h2 : x < 2 ^ (Nat.log 2 x + 1) := Nat.lt_pow_succ_log_self (by omega) x
  rw [Nat.testBit_to_div_mod]
  have h3 : x / 2 ^ Nat.log 2 x = 1 := by
    apply Nat.div_eq_of_lt_le
    · simpa using h1
    · rw [pow_succ] at h2; omega
  rw [h3]; rfl

/-- No bit above the position of the binary logarithm is set. -/
theorem testBit_above_log (x i : Nat) (hi : Nat.log 2 x < i) : x.testBit i = false := by
  apply Nat.testBit_lt_two_pow
  have h2 : x < 2 ^ (Nat.log 2 x + 1) := Nat.lt_pow_succ_log_self (by omega) x
  exact lt_of_lt_of_le h2 (Nat.pow_le_pow_right (by omega) hi)

/-- The smeared value of a positive 64-bit `x` has exactly the bits
`0 .. floor(log2 x)` set. -/
theorem smear_eq_of_pos (x : Nat) (h0 : 0 < x) (hx : x < 2 ^ 64) :
    smear x = 2 ^ (Nat.log 2 x + 1) - 1 := by
  apply Nat.eq_of_testBit_eq
  intro i
  rw [Nat.testBit_two_pow_sub_one]
  have hl := log_lt_64 x hx
  by_cases hi : i < Nat.log 2 x + 1
  · rw [decide_eq_true hi, testBit_smear]
    refine ⟨Nat.log 2 x - i, by omega, ?_⟩
    have e : i + (Nat.log 2 x - i) = Nat.log 2 x := by omega
    rw [e]; exact testBit_log x h0
  · rw [decide_eq_false hi, Bool.eq_false_iff, Ne, testBit_smear]
    rintro ⟨j, _, hb⟩
    rw [testBit_above_log x (i + j) (by omega)] at hb
    exact Bool.false_ne_true hb

theorem smear_zero : smear 0 = 0 := by decide

/-! The isolated bit -/

/-- Below `2 ^ 63` the increment does not wrap and the result is the power of
two at the position of the binary logarithm. -/
theorem most_significant_bit_of_lt (x : Nat) (h0 : 0 < x) (hx : x < 2 ^ 63) :
    most_significant_bit x = 2 ^ Nat.log 2 x := by
  have hl : Nat.log 2 x < 63 := Nat.log_lt_of_lt_pow (by omega) hx
  have hp : 0 < 2 ^ (Nat.log 2 x + 1) := Nat.pos_pow_of_pos _ (by omega)
  have hb : 2 ^ (Nat.log 2 x + 1) ≤ 2 ^ 63 := Nat.pow_le_pow_right (by omega) (by omega)
  rw [most_significant_bit_eq, smear_eq_of_pos x h0 (by omega), Nat.sub_add_cancel hp,
    UINT64_SIZE, Nat.mod_eq_of_lt (by omega), Nat.shiftRight_eq_div_pow, pow_succ]
  simp

/-- From `2 ^ 63` on the smeared value is all ones. -/
theorem smear_of_ge (x : Nat) (h0 : 2 ^ 63 ≤ x) (hx : x < 2 ^ 64) :
    smear x = 2 ^ 64 - 1 := by
  have hl : Nat.log 2 x = 63 := Nat.log_eq_of_pow_le_of_lt_pow h0 hx
  rw [smear_eq_of_pos x (by omega) hx, hl]

/-! The counting loop -/

/-- The counting loop adds the floor of the binary logarithm of its start value
to the counter. -/
theorem countLoop_eq (x : Nat) : ∀ ret, countLoop x ret = ret + Nat.log 2 x := by
  induction x using Nat.strong_induction_on with
  | _ x ih =>
    intro ret
    rw [countLoop]
    by_cases h : x > 1
    · have hlog : Nat.log 2 x = Nat.log 2 (x / 2) + 1 :=
        Nat.log_of_one_lt_of_le (by omega) (by omega)
      rw [if_pos h, Nat.shiftRight_eq_div_pow, pow_one, ih (x / 2) (by omega), hlog]
      omega
    · rw [if_neg h, Nat.log_of_lt (by omega)]
      rfl

/-- A budget of `fuel` iterations is enough exactly when the binary logarithm of
the start value is at most `fuel`. -/
theorem countLoopFuel_eq : ∀ fuel x ret,
    countLoopFuel fuel x ret
      = if Nat.log 2 x ≤ fuel then some (ret + Nat.log 2 x) else none := by
  intro fuel
  induction fuel with
  | zero =>
    intro x ret
    rw [countLoopFuel]
    by_cases h : x > 1
    · have hl := Nat.log_pos (b := 2) (by omega) (show 2 ≤ x by omega)
      rw [if_pos h, if_neg (by omega)]
    · rw [if_neg h, Nat.log_of_lt (by omega)]
      simp
  | succ f ih =>
    intro x ret
    rw [countLoopFuel]
    by_cases h : x > 1
    · rw [if_pos h]
      simp only [ih, Nat.shiftRight_eq_div_pow, pow_one]
      rw [Nat.log_of_one_lt_of_le (b := 2) (n := x) (by omega) (by omega)]
      by_cases hf : Nat.log 2 (x / 2) ≤ f
      · rw [if_pos hf, if_pos (by omega)]
        congr 1; omega
      · rw [if_neg hf, if_neg (by omega)]
    · rw [if_neg h, Nat.log_of_lt (by omega)]
      simp

/-- The counter grows by at most `fuel` when the start value is below
`2 ^ (fuel + 1)`. -/
theorem countLoop_le (fuel x ret : Nat) (hx : x < 2 ^ (fuel + 1)) :
    countLoop x ret ≤ ret + fuel := by
  rw [countLoop_eq]
  rcases Nat.eq_zero_or_pos x with h | h
  · subst h; simp
  · have := Nat.log_lt_of_lt_pow (b := 2) (by omega) hx
    omega

/-- The value that enters the counting loop is at most `2 ^ 62`. -/
theorem most_significant_bit_le (x : Nat) (hx : x < 2 ^ 64) :
    most_significant_bit x ≤ 2 ^ 62 := by
  rcases Nat.eq_zero_or_pos x with h | h
  · subst h; decide
  · by_cases hlt : x < 2 ^ 63
    · have hl : Nat.log 2 x < 63 := Nat.log_lt_of_lt_pow (by omega) hlt
      rw [most_significant_bit_of_lt x h hlt]
      exact Nat.pow_le_pow_right (by omega) (by omega)
    · rw [most_significant_bit_eq, smear_of_ge x (by omega) hx]
      decide

/-- From `2 ^ 63` on the increment wraps and the result is `0`. -/
theorem most_significant_bit_of_ge (x : Nat) (h0 : 2 ^ 63 ≤ x) (hx : x < 2 ^ 64) :
    most_significant_bit x = 0 := by
  rw [most_significant_bit_eq, smear_of_ge x h0 hx]
  decide

/-- The position is the binary logarithm of the isolated bit. -/
theorem position_eq_log_isolated (x : Nat) :
    position_of_the_most_significant_bit x = Nat.log 2 (most_significant_bit x) := by
  rw [position_eq_countLoop, countLoop_eq, Nat.zero_add]

/-- Below `2 ^ 63` the position is the binary logarithm of the input. -/
theorem position_of_lt (x : Nat) (h0 : 0 < x) (hx : x < 2 ^ 63) :
    position_of_the_most_significant_bit x = Nat.log 2 x := by
  rw [position_eq_log_isolated, most_significant_bit_of_lt x h0 hx, Nat.log_pow (by omega)]

/-- The counting step of the specification adds the floor of the binary
logarithm of its start value to the counter, as the loop of the source does. -/
theorem shiftUntilLeOne_eq (value : Nat) :
    ∀ counter, shiftUntilLeOne value counter = counter + Nat.log 2 value := by
  induction value using Nat.strong_induction_on with
  | _ v ih =>
    intro counter
    rw [shiftUntilLeOne]
    by_cases h : v ≤ 1
    · rw [if_pos h, Nat.log_of_lt (by omega)]
      rfl
    · have hlog : Nat.log 2 v = Nat.log 2 (v / 2) + 1 :=
        Nat.log_of_one_lt_of_le (by omega) (by omega)
      rw [if_neg h, Nat.shiftRight_eq_div_pow, pow_one, ih (v / 2) (by omega), hlog]
      omega

/-- The algorithm of the specification returns the binary logarithm of the
smeared value. -/
theorem position_spec_eq_log (x : Nat) : position_spec x = Nat.log 2 (smear x) := by
  rw [position_spec, shiftUntilLeOne_eq, Nat.zero_add]

/-- The algorithm of the specification returns the binary logarithm of every
64-bit input. -/
theorem position_spec_eq_log_input (x : Nat) (hx : x < 2 ^ 64) :
    position_spec x = Nat.log 2 x := by
  rw [position_spec_eq_log]
  rcases Nat.eq_zero_or_pos x with h | h
  · subst h; rw [smear_zero]
  · rw [smear_eq_of_pos x h hx]
    apply Nat.log_eq_of_pow_le_of_lt_pow
    · have hp : 0 < 2 ^ Nat.log 2 x := Nat.pos_pow_of_pos _ (by omega)
      rw [pow_succ]; omega
    · have hp : 0 < 2 ^ (Nat.log 2 x + 1) := Nat.pos_pow_of_pos _ (by omega)
      omega

/-- Below `2 ^ 63` the source and the algorithm of the specification agree. -/
theorem position_eq_spec_of_lt (x : Nat) (hx : x < 2 ^ 63) :
    position_of_the_most_significant_bit x = position_spec x := by
  rw [position_spec_eq_log_input x (by omega)]
  rcases Nat.eq_zero_or_pos x with h | h
  · subst h
    have h0 : most_significant_bit 0 = 0 := by decide
    rw [position_eq_log_isolated, h0]
  · exact position_of_lt x h hx

/-- From `2 ^ 63` on the loop of the source starts at `0` and returns `0`. -/
theorem position_of_ge (x : Nat) (h0 : 2 ^ 63 ≤ x) (hx : x < 2 ^ 64) :
    position_of_the_most_significant_bit x = 0 := by
  rw [position_eq_log_isolated, most_significant_bit_of_ge x h0 hx]
  simp

/-! The claims -/

/-- C1: for every `x` with `1 ≤ x ≤ 2 ^ 63 - 1`, `most_significant_bit x` is a
power of two `p` with `p ≤ x < 2 * p`. -/
theorem most_significant_bit_bracket (x : Nat) (h1 : 1 ≤ x) (h2 : x ≤ 2 ^ 63 - 1) :
    ∃ k, most_significant_bit x = 2 ^ k ∧
      most_significant_bit x ≤ x ∧ x < 2 * most_significant_bit x := by
  have hx : x < 2 ^ 63 := by omega
  refine ⟨Nat.log 2 x, most_significant_bit_of_lt x h1 hx, ?_, ?_⟩
  · rw [most_significant_bit_of_lt x h1 hx]
    exact Nat.pow_log_le_self 2 (by omega)
  · rw [most_significant_bit_of_lt x h1 hx, ← pow_succ']
    exact Nat.lt_pow_succ_log_self (by omega) x

/-- The three inputs of the self-test of `most_significant_bit`, with the
bracket at the first of them. -/
theorem most_significant_bit_bracket_witness :
    ((1 : Nat) ≤ 203 ∧ (203 : Nat) ≤ 2 ^ 63 - 1) ∧
    (most_significant_bit 203 = 128 ∧ most_significant_bit 13 = 8 ∧
      most_significant_bit 469366124 = 268435456) ∧
    ∃ k, most_significant_bit 203 = 2 ^ k ∧
      most_significant_bit 203 ≤ 203 ∧ 203 < 2 * most_significant_bit 203 :=
  ⟨by decide, by decide, most_significant_bit_bracket 203 (by decide) (by decide)⟩

/-- C2: for every `x` with `1 ≤ x ≤ 2 ^ 63 - 1`,
`position_of_the_most_significant_bit x` is the floor of the binary logarithm
of `x`, which is the index of the highest set bit of `x`: that bit is set and
no bit above it is. -/
theorem position_eq_floor_log (x : Nat) (h1 : 1 ≤ x) (h2 : x ≤ 2 ^ 63 - 1) :
    position_of_the_most_significant_bit x = Nat.log 2 x ∧
      x.testBit (position_of_the_most_significant_bit x) = true ∧
      ∀ i, position_of_the_most_significant_bit x < i → x.testBit i = false := by
  have hp := position_of_lt x h1 (by omega)
  refine ⟨hp, ?_, ?_⟩
  · rw [hp]; exact testBit_log x h1
  · intro i hi
    rw [hp] at hi
    exact testBit_above_log x i hi

/-- The three inputs of the self-test of `position_of_the_most_significant_bit`,
with the logarithm at the first of them. -/
theorem position_eq_floor_log_witness :
    ((1 : Nat) ≤ 203 ∧ (203 : Nat) ≤ 2 ^ 63 - 1) ∧
    (position_of_the_most_significant_bit 203 = 7 ∧
      position_of_the_most_significant_bit 13 = 3 ∧
      position_of_the_most_significant_bit 469366124 = 28) ∧
    (position_of_the_most_significant_bit 203 = Nat.log 2 203 ∧
      (203 : Nat).testBit (position_of_the_most_significant_bit 203) = true ∧
      ∀ i, position_of_the_most_significant_bit 203 < i → (203 : Nat).testBit i = false) :=
  ⟨by decide, by simp [position_of_the_most_significant_bit, countLoop, UINT64_SIZE],
    position_eq_floor_log 203 (by decide) (by decide)⟩

/-- C3, at the input `2 ^ 63`: the input is a 64-bit value whose highest set bit
is bit 63, and `most_significant_bit` returns `0`, a value with no bit set,
where the claim and the documentation of the function ask for `2 ^ 63`. -/
theorem most_significant_bit_top_bit_lost :
    (2 ^ 63 : Nat) < UINT64_SIZE ∧ (2 ^ 63 : Nat).testBit 63 = true ∧
      most_significant_bit (2 ^ 63) = 0 ∧ most_significant_bit (2 ^ 63) ≠ 2 ^ 63 := by
  decide

/-- C4: for every 64-bit `x` with bit 63 set (`2 ^ 63 ≤ x`), the smeared value
is all 64 ones, the increment wraps to `0` modulo `2 ^ 64`, and
`most_significant_bit x` is `0`. -/
theorem most_significant_bit_wraps (x : Nat) (h : 2 ^ 63 ≤ x) (hx : x < 2 ^ 64) :
    smear x = 2 ^ 64 - 1 ∧ (smear x + 1) % UINT64_SIZE = 0 ∧
      ((smear x + 1) % UINT64_SIZE) >>> 1 = 0 ∧ most_significant_bit x = 0 := by
  have hs := smear_of_ge x h hx
  refine ⟨hs, ?_, ?_, most_significant_bit_of_ge x h hx⟩
  · rw [hs]; decide
  · rw [hs]; decide

/-- The wrap at the input `1 << 63`, the least 64-bit value with bit 63 set. -/
theorem most_significant_bit_wraps_witness :
    ((2 : Nat) ^ 63 ≤ 2 ^ 63 ∧ (2 : Nat) ^ 63 < 2 ^ 64) ∧
    (smear (2 ^ 63) = 2 ^ 64 - 1 ∧ (smear (2 ^ 63) + 1) % UINT64_SIZE = 0 ∧
      ((smear (2 ^ 63) + 1) % UINT64_SIZE) >>> 1 = 0 ∧ most_significant_bit (2 ^ 63) = 0) :=
  ⟨by decide, most_significant_bit_wraps (2 ^ 63) (by decide) (by decide)⟩

/-- C5: `most_significant_bit 0` is `0`. -/
theorem most_significant_bit_zero : most_significant_bit 0 = 0 := by decide

/-- C6: idempotence: for every 64-bit `x > 0`,
`most_significant_bit (most_significant_bit x)` is `most_significant_bit x`. -/
theorem most_significant_bit_idempotent (x : Nat) (h0 : 0 < x) (hx : x < 2 ^ 64) :
    most_significant_bit (most_significant_bit x) = most_significant_bit x := by
  by_cases hlt : x < 2 ^ 63
  · have hl : Nat.log 2 x < 63 := Nat.log_lt_of_lt_pow (by omega) hlt
    have hp : 0 < 2 ^ Nat.log 2 x := Nat.pos_pow_of_pos _ (by omega)
    have hb : 2 ^ Nat.log 2 x < 2 ^ 63 := Nat.pow_lt_pow_right (by omega) hl
    rw [most_significant_bit_of_lt x h0 hlt, most_significant_bit_of_lt _ hp hb,
      Nat.log_pow (by omega)]
  · rw [most_significant_bit_of_ge x (by omega) hx]
    decide

/-- Idempotence at the inputs `203` and `2 ^ 64 - 1`, one on each side of
`2 ^ 63`. -/
theorem most_significant_bit_idempotent_witness :
    ((0 : Nat) < 203 ∧ (203 : Nat) < 2 ^ 64 ∧ (0 : Nat) < 2 ^ 64 - 1 ∧
      (2 : Nat) ^ 64 - 1 < 2 ^ 64) ∧
    most_significant_bit (most_significant_bit 203) = most_significant_bit 203 ∧
      most_significant_bit (most_significant_bit (2 ^ 64 - 1))
        = most_significant_bit (2 ^ 64 - 1) :=
  ⟨by decide, most_significant_bit_idempotent 203 (by decide) (by decide),
    most_significant_bit_idempotent (2 ^ 64 - 1) (by decide) (by decide)⟩

/-- C7: `position_of_the_most_significant_bit 0` is `0`, the value returned for
the input `1` as well. -/
theorem position_zero_eq_position_one :
    position_of_the_most_significant_bit 0 = 0 ∧
      position_of_the_most_significant_bit 1 = 0 ∧
      position_of_the_most_significant_bit 0 = position_of_the_most_significant_bit 1 := by
  simp [position_of_the_most_significant_bit, countLoop, UINT64_SIZE]

/-- C8: for every 64-bit `x`, the counting loop of
`position_of_the_most_significant_bit` ends within 63 iterations, the returned
value is at most 63, and the number of iterations is the returned value: a
budget of iterations suffices exactly when it is at least the returned value. -/
theorem position_loop_terminates (x : Nat) (hx : x < 2 ^ 64) :
    position_fuel 63 x = some (position_of_the_most_significant_bit x) ∧
      position_of_the_most_significant_bit x ≤ 63 ∧
      ∀ fuel, position_fuel fuel x
        = if position_of_the_most_significant_bit x ≤ fuel
          then some (position_of_the_most_significant_bit x) else none := by
  have hle : position_of_the_most_significant_bit x ≤ 63 := by
    have hm := most_significant_bit_le x hx
    have := countLoop_le 63 (most_significant_bit x) 0 (by
      have : (2 : Nat) ^ 62 < 2 ^ (63 + 1) := by decide
      omega)
    rw [position_eq_countLoop]; omega
  have hall : ∀ fuel, position_fuel fuel x
      = if position_of_the_most_significant_bit x ≤ fuel
        then some (position_of_the_most_significant_bit x) else none := by
    intro fuel
    rw [position_fuel_eq, countLoopFuel_eq, position_eq_log_isolated, Nat.zero_add]
  refine ⟨?_, hle, hall⟩
  rw [hall 63, if_pos hle]

/-- The loop bound at the input `2 ^ 62`, where the loop runs 62 times. -/
theorem position_loop_terminates_witness :
    ((2 : Nat) ^ 62 < 2 ^ 64 ∧ position_fuel 62 (2 ^ 62) = some 62 ∧
      position_fuel 61 (2 ^ 62) = none) ∧
    (position_fuel 63 (2 ^ 62) = some (position_of_the_most_significant_bit (2 ^ 62)) ∧
      position_of_the_most_significant_bit (2 ^ 62) ≤ 63 ∧
      ∀ fuel, position_fuel fuel (2 ^ 62)
        = if position_of_the_most_significant_bit (2 ^ 62) ≤ fuel
          then some (position_of_the_most_significant_bit (2 ^ 62)) else none) :=
  ⟨by decide, position_loop_terminates (2 ^ 62) (by decide)⟩

/-- C9: for every `x`, `position_of_the_most_significant_bit x`, which repeats
the isolation inline, is the result of its counting loop run on
`most_significant_bit x`. -/
theorem position_eq_via_isolate (x : Nat) :
    position_of_the_most_significant_bit x = position_via_isolate x := rfl

/-- C10: for every 64-bit `x`, the value after the six shift-or steps is `0` when
`x` is `0` and `2 ^ (floor(log2 x) + 1) - 1` otherwise, so its set bits are
exactly the bits `0 .. floor(log2 x)`. -/
theorem smear_closed_form (x : Nat) (hx : x < 2 ^ 64) :
    smear x = (if x = 0 then 0 else 2 ^ (Nat.log 2 x + 1) - 1) ∧
      ∀ i, (smear x).testBit i = decide (x ≠ 0 ∧ i ≤ Nat.log 2 x) := by
  by_cases h : x = 0
  · subst h
    refine ⟨by decide, fun i => ?_⟩
    rw [smear_zero]; simp
  · have hs := smear_eq_of_pos x (by omega) hx
    refine ⟨by rw [if_neg h]; exact hs, fun i => ?_⟩
    rw [hs, Nat.testBit_two_pow_sub_one]
    simp [h, Nat.lt_succ_iff]

/-- The closed form at the input `203`, whose smeared value is `255`. -/
theorem smear_closed_form_witness :
    ((203 : Nat) < 2 ^ 64 ∧ smear 203 = 255) ∧
    (smear 203 = (if 203 = 0 then 0 else 2 ^ (Nat.log 2 203 + 1) - 1) ∧
      ∀ i, (smear 203).testBit i = decide (203 ≠ 0 ∧ i ≤ Nat.log 2 203)) :=
  ⟨by decide, smear_closed_form 203 (by decide)⟩

/-- C11, at the input `2 ^ 63`: the algorithm of the specification, which counts
on the smeared value, returns `63`, the index of the highest set bit, while
`position_of_the_most_significant_bit` returns `0`, because its increment wraps
before the loop starts. -/
theorem position_differs_from_spec_at_top_bit :
    (2 ^ 63 : Nat) < UINT64_SIZE ∧ position_spec (2 ^ 63) = 63 ∧
      position_of_the_most_significant_bit (2 ^ 63) = 0 ∧
      position_of_the_most_significant_bit (2 ^ 63) ≠ position_spec (2 ^ 63) := by
  have hs : position_spec (2 ^ 63) = 63 := by
    rw [position_spec_eq_log_input (2 ^ 63) (by decide)]
    exact Nat.log_pow (by decide) 63
  have hp : position_of_the_most_significant_bit (2 ^ 63) = 0 :=
    position_of_ge (2 ^ 63) (by decide) (by decide)
  refine ⟨by decide, hs, hp, ?_⟩
  rw [hs, hp]
  decide

/-- C12, at the input `2 ^ 64 - 1`: the smeared value is all 64 ones, and the
increment of `most_significant_bit` leaves the range of a `uint64_t`, so it
wraps to `0`. -/
theorem increment_wraps_at_all_ones :
    (2 ^ 64 - 1 : Nat) < UINT64_SIZE ∧ smear (2 ^ 64 - 1) = 2 ^ 64 - 1 ∧
      UINT64_SIZE ≤ smear (2 ^ 64 - 1) + 1 ∧
      (smear (2 ^ 64 - 1) + 1) % UINT64_SIZE = 0 ∧
      (smear (2 ^ 64 - 1) + 1) % UINT64_SIZE ≠ smear (2 ^ 64 - 1) + 1 ∧
      most_significant_bit (2 ^ 64 - 1) = 0 := by
  decide

/-- C13: for every 64-bit `x` with bit 63 set (`2 ^ 63 ≤ x`),
`position_of_the_most_significant_bit x` is `0`, and no 64-bit input makes the
function return `63`. -/
theorem position_never_63 (x : Nat) (hx : x < 2 ^ 64) :
    (2 ^ 63 ≤ x → position_of_the_most_significant_bit x = 0) ∧
      position_of_the_most_significant_bit x ≠ 63 := by
  refine ⟨fun h => position_of_ge x h hx, ?_⟩
  by_cases hlt : x < 2 ^ 63
  · rcases Nat.eq_zero_or_pos x with h | h
    · subst h
      have h0 : most_significant_bit 0 = 0 := by decide
      rw [position_eq_log_isolated, h0]
      simp
    · have hl : Nat.log 2 x < 63 := Nat.log_lt_of_lt_pow (by omega) hlt
      rw [position_of_lt x h hlt]
      omega
  · rw [position_of_ge x (by omega) hx]
    decide

/-- The position at the inputs `1 << 63` and `2 ^ 64 - 1`, which have bit 63
set. -/
theorem position_never_63_witness :
    ((2 : Nat) ^ 63 < 2 ^ 64 ∧ (2 : Nat) ^ 63 ≤ 2 ^ 63 ∧ (2 : Nat) ^ 64 - 1 < 2 ^ 64 ∧
      (2 : Nat) ^ 63 ≤ 2 ^ 64 - 1) ∧
    (position_of_the_most_significant_bit (2 ^ 63) = 0 ∧
      position_of_the_most_significant_bit (2 ^ 63) ≠ 63) ∧
    (position_of_the_most_significant_bit (2 ^ 64 - 1) = 0 ∧
      position_of_the_most_significant_bit (2 ^ 64 - 1) ≠ 63) :=
  ⟨by decide,
    ⟨(position_never_63 (2 ^ 63) (by decide)).1 (by decide),
      (position_never_63 (2 ^ 63) (by decide)).2⟩,
    ⟨(position_never_63 (2 ^ 64 - 1) (by decide)).1 (by decide),
      (position_never_63 (2 ^ 64 - 1) (by decide)).2⟩⟩

/-- C14: the two operations agree: for every `x` with `1 ≤ x ≤ 2 ^ 63 - 1`,
`most_significant_bit x` is `2 ^ position_of_the_most_significant_bit x`, that
is `1` shifted left by the returned position. -/
theorem most_significant_bit_eq_two_pow_position (x : Nat) (h1 : 1 ≤ x)
    (h2 : x ≤ 2 ^ 63 - 1) :
    most_significant_bit x = 2 ^ position_of_the_most_significant_bit x ∧
      most_significant_bit x = 1 <<< position_of_the_most_significant_bit x := by
  have hx : x < 2 ^ 63 := by omega
  have h : most_significant_bit x = 2 ^ position_of_the_most_significant_bit x := by
    rw [position_of_lt x h1 hx]
    exact most_significant_bit_of_lt x h1 hx
  exact ⟨h, by rw [Nat.one_shiftLeft]; exact h⟩

/-- The agreement at the self-test input `203`: isolated bit `128`, position
`7`. -/
theorem most_significant_bit_eq_two_pow_position_witness :
    ((1 : Nat) ≤ 203 ∧ (203 : Nat) ≤ 2 ^ 63 - 1 ∧ most_significant_bit 203 = 2 ^ 7) ∧
    (most_significant_bit 203 = 2 ^ position_of_the_most_significant_bit 203 ∧
      most_significant_bit 203 = 1 <<< position_of_the_most_significant_bit 203) :=
  ⟨by decide, most_significant_bit_eq_two_pow_position 203 (by decide) (by decide)⟩

/-- C15: for every 64-bit `x`, the result of `most_significant_bit` is a
sub-mask of the input: `most_significant_bit x &&& x` is
`most_significant_bit x`, and `most_significant_bit x ≤ x`. -/
theorem most_significant_bit_submask (x : Nat) (hx : x < 2 ^ 64) :
    most_significant_bit x &&& x = most_significant_bit x ∧
      most_significant_bit x ≤ x := by
  rcases Nat.eq_zero_or_pos x with h | h
  · subst h; decide
  · by_cases hlt : x < 2 ^ 63
    · rw [most_significant_bit_of_lt x h hlt]
      refine ⟨?_, Nat.pow_log_le_self 2 (by omega)⟩
      apply Nat.eq_of_testBit_eq
      intro i
      rw [Nat.testBit_and, Nat.testBit_two_pow]
      by_cases hi : Nat.log 2 x = i
      · rw [← hi, testBit_log x h]; simp
      · simp [hi]
    · rw [most_significant_bit_of_ge x (by omega) hx]
      exact ⟨Nat.zero_and x, Nat.zero_le x⟩

/-- The sub-mask at the inputs `203` and `2 ^ 64 - 1`, one on each side of
`2 ^ 63`. -/
theorem most_significant_bit_submask_witness :
    ((203 : Nat) < 2 ^ 64 ∧ (2 : Nat) ^ 64 - 1 < 2 ^ 64 ∧
      most_significant_bit 203 &&& 203 = 128) ∧
    (most_significant_bit 203 &&& 203 = most_significant_bit 203 ∧
      most_significant_bit 203 ≤ 203) ∧
    (most_significant_bit (2 ^ 64 - 1) &&& (2 ^ 64 - 1) = most_significant_bit (2 ^ 64 - 1) ∧
      most_significant_bit (2 ^ 64 - 1) ≤ 2 ^ 64 - 1) :=
  ⟨by decide, most_significant_bit_submask 203 (by decide),
    most_significant_bit_submask (2 ^ 64 - 1) (by decide)⟩

/-- C16: `most_significant_bit` is monotone below `2 ^ 63`: for all `x`, `y`
with `x ≤ y ≤ 2 ^ 63 - 1`, `most_significant_bit x ≤ most_significant_bit y`. -/
theorem most_significant_bit_monotone (x y : Nat) (hxy : x ≤ y) (hy : y ≤ 2 ^ 63 - 1) :
    most_significant_bit x ≤ most_significant_bit y := by
  rcases Nat.eq_zero_or_pos x with h | h
  · subst h
    have h0 : most_significant_bit 0 = 0 := by decide
    rw [h0]; exact Nat.zero_le _
  · rw [most_significant_bit_of_lt x h (by omega),
      most_significant_bit_of_lt y (by omega) (by omega)]
    exact Nat.pow_le_pow_right (by omega) (Nat.log_mono_right hxy)

/-- Monotonicity at the self-test inputs `13 ≤ 203`, with results `8 ≤ 128`. -/
theorem most_significant_bit_monotone_witness :
    ((13 : Nat) ≤ 203 ∧ (203 : Nat) ≤ 2 ^ 63 - 1 ∧ most_significant_bit 13 = 8 ∧
      most_significant_bit 203 = 128) ∧
    most_significant_bit 13 ≤ most_significant_bit 203 :=
  ⟨by decide, most_significant_bit_monotone 13 203 (by decide) (by decide)⟩

end bit_manipulation
